import Mathlib

/-!
Verification development for a minimal proof-of-work ledger (`main.py`).

The program consists of a hash helper `encode_string` (SHA-256 hexdigest of the
UTF-8 encoding, provided by the external `hashlib` library), a `Block` class and
a `BlockChain` class.  Following the specification, which treats the exact hash
algorithm as a compatibility parameter ("any collision-resistant, fixed-output
one-way function qualifies"), the digest function is modelled as an explicit
parameter `encode_string : String → String` of every operation; everything
else is translated directly from the source.

The mining loop `while block.hash[:difficulty] != '0'*difficulty: block.nonce
+= 1; block.compute_hash()` is modelled by `loopState` (the state of the loop
after `k` iterations), `loopDone` (the loop's exit condition after `k`
iterations) and `mineLoop`, which returns the state at the first iteration
count satisfying the exit condition (`Nat.find`); the existence hypothesis
`minable` is the termination of the loop, which the source does not bound
("terminates with probability 1 but has no fixed iteration bound").

`check_integrity` walks the blocks from index 1, asserting the link, the
digest recomputation and the proof-of-work condition in that order; Python
raises `AssertionError` at the first failure.  Per the specification, which
allows exposing the pass as `Result<(), IntegrityViolation>`, the walk is
modelled as an `Except IntegrityViolation Bool` value, with the violation kind
and index recording which assert fired and at which loop index.
-/

/-- The string `'0' * d`: the proof-of-work target prefix. -/
def zeroString (d : Nat) : String :=
  String.mk (List.replicate d '0')

/-- `block.hash[:difficulty] == '0'*difficulty`: the validity condition used in
the mining loop and in the third assert of `check_integrity`. -/
def powOk (d : Nat) (s : String) : Bool :=
  s.take d == zeroString d

/-- The `Block` class: index in the chain (`None` until assigned), nonce,
content, back-reference to the previous block's hash (set during
`validate_block`; the placeholder `""` stands for the attribute not having
been assigned yet) and the hash. -/
structure Block where
  idx : Option Nat
  nonce : Nat
  content : String
  previous_block_hash : String
  hash : String
deriving DecidableEq

instance : Inhabited Block :=
  ⟨{ idx := none, nonce := 0, content := "", previous_block_hash := "", hash := "" }⟩

/-- `Block.compute_hash`: updates the hash from the block's content and nonce
(`self.hash = encode_string(self.content + str(self.nonce))`).  The source's
`assert type(content_to_hash) == str` is enforced by the types. -/
def Block.compute_hash (encode_string : String → String) (b : Block) : Block :=
  { b with hash := encode_string (b.content ++ toString b.nonce) }

/-- `Block.__init__`: `idx = None`, `nonce = 0`, the given content, then
`compute_hash()`. -/
def Block.init (encode_string : String → String) (content : String) : Block :=
  Block.compute_hash encode_string
    { idx := none, nonce := 0, content := content, previous_block_hash := "", hash := "" }

/-- The `BlockChain` class: a difficulty and an ordered list of blocks. -/
structure BlockChain where
  difficulty : Nat
  blocks : List Block
deriving DecidableEq

/-- The distinguished no-predecessor marker assigned to the genesis block. -/
def genesisSentinel : String :=
  "(genesis has no previous block)"

/-- State of the mining loop of `validate_block` after `k` iterations: the
nonce has been incremented `k` times, and for `k ≥ 1` the hash has been
recomputed from the current nonce (for `k = 0` it is untouched). -/
def loopState (encode_string : String → String) (content : String) (nonce0 : Nat)
    (hash0 : String) (k : Nat) : Nat × String :=
  (nonce0 + k, if k = 0 then hash0 else encode_string (content ++ toString (nonce0 + k)))

/-- Exit condition of the mining loop after `k` iterations. -/
def loopDone (encode_string : String → String) (d : Nat) (content : String) (nonce0 : Nat)
    (hash0 : String) (k : Nat) : Bool :=
  powOk d (loopState encode_string content nonce0 hash0 k).2

/-- The mining loop: runs until the exit condition first holds and returns the
final `(nonce, hash)` pair.  Termination is the hypothesis `h`. -/
def mineLoop (encode_string : String → String) (d : Nat) (content : String) (nonce0 : Nat)
    (hash0 : String) (h : ∃ k, loopDone encode_string d content nonce0 hash0 k = true) :
    Nat × String :=
  loopState encode_string content nonce0 hash0 (Nat.find h)

/-- Termination of the mining loop of `validate_block` on block `b` at
difficulty `d`. -/
def minable (encode_string : String → String) (d : Nat) (b : Block) : Prop :=
  ∃ k, loopDone encode_string d b.content b.nonce b.hash k = true

/-- `BlockChain.validate_block`: assigns the predecessor hash (the sentinel for
index 0, otherwise `blocks[idx-1].hash`), runs the mining loop, and appends
the block.  `b.idx.getD 0` reads the block's index, which has always been
assigned by `addBlock` before this method runs (on an unassigned index Python
would raise a `TypeError` at `block.idx - 1`; that path is unreachable in the
program, and out-of-range indices, on which Python would raise `IndexError`,
are likewise totalised with `List.getD`). -/
def validate_block (encode_string : String → String) (c : BlockChain) (b : Block)
    (h : minable encode_string c.difficulty b) : BlockChain :=
  let i := b.idx.getD 0
  let prev : String :=
    if i = 0 then genesisSentinel else (c.blocks.getD (i - 1) default).hash
  let b1 : Block := { b with previous_block_hash := prev }
  let m := mineLoop encode_string c.difficulty b1.content b1.nonce b1.hash h
  let b2 : Block := { b1 with nonce := m.1, hash := m.2 }
  { c with blocks := c.blocks ++ [b2] }

/-- `BlockChain.addBlock`: assigns `new_block.idx = len(self.blocks)` and runs
`validate_block`. -/
def addBlock (encode_string : String → String) (c : BlockChain) (b : Block)
    (h : minable encode_string c.difficulty b) : BlockChain :=
  validate_block encode_string c { b with idx := some c.blocks.length } h

/-- `BlockChain.create_genesis`: builds `Block(content='this is the genesis')`,
sets its index to 0 and adds it through `addBlock` (which re-assigns the
index from the chain length). -/
def create_genesis (encode_string : String → String) (c : BlockChain)
    (h : minable encode_string c.difficulty (Block.init encode_string "this is the genesis")) :
    BlockChain :=
  addBlock encode_string c { Block.init encode_string "this is the genesis" with idx := some 0 } h

/-- `BlockChain.__init__`: stores the difficulty (the source defaults it to 2),
starts from an empty block list and runs `create_genesis`. -/
def BlockChain.init (encode_string : String → String) (difficulty : Nat)
    (h : minable encode_string difficulty (Block.init encode_string "this is the genesis")) :
    BlockChain :=
  create_genesis encode_string { difficulty := difficulty, blocks := [] } h

/-- The error taxonomy of the integrity pass, per the specification:
`IntegrityViolation{kind, index}` with the kind naming which of the three
asserts of `check_integrity` fired and the index naming the failing block. -/
inductive IntegrityViolation where
  | LinkMismatch (i : Nat)
  | DigestMismatch (i : Nat)
  | ProofOfWorkUnsatisfied (i : Nat)
deriving DecidableEq

deriving instance DecidableEq for Except

/-- The three checks `check_integrity` performs at one loop index, in source
order (link, digest recomputation, proof of work), reported as the first
violation or `none`. -/
def stepViolation (encode_string : String → String) (d : Nat) (previous_block block : Block)
    (i : Nat) : Option IntegrityViolation :=
  if previous_block.hash ≠ block.previous_block_hash then
    some (IntegrityViolation.LinkMismatch i)
  else if block.hash ≠ encode_string (block.content ++ toString block.nonce) then
    some (IntegrityViolation.DigestMismatch i)
  else if ¬ (powOk d block.hash = true) then
    some (IntegrityViolation.ProofOfWorkUnsatisfied i)
  else
    none

/-- The loop of `BlockChain.check_integrity`, walking the remaining blocks with
the previous block and the current loop index `i` carried along: each step
asserts the link, the digest recomputation and the proof-of-work condition in
that order, stopping at the first failure. -/
def checkFrom (encode_string : String → String) (d : Nat) :
    Block → List Block → Nat → Except IntegrityViolation Bool
  | _, [], _ => Except.ok true
  | previous_block, block :: rest, i =>
    if previous_block.hash ≠ block.previous_block_hash then
      Except.error (IntegrityViolation.LinkMismatch i)
    else if block.hash ≠ encode_string (block.content ++ toString block.nonce) then
      Except.error (IntegrityViolation.DigestMismatch i)
    else if ¬ (powOk d block.hash = true) then
      Except.error (IntegrityViolation.ProofOfWorkUnsatisfied i)
    else
      checkFrom encode_string d block rest (i + 1)

/-- `BlockChain.check_integrity`: `for i in range(1, len(self.blocks))`, check
block `i` against block `i-1`; the genesis block at index 0 is only ever read
as a predecessor.  Returns `ok true` when no assert fires. -/
def check_integrity (encode_string : String → String) (c : BlockChain) :
    Except IntegrityViolation Bool :=
  match c.blocks with
  | [] => Except.ok true
  | b0 :: rest => checkFrom encode_string c.difficulty b0 rest 1

/-- Declarative per-index reading of the verification pass: the first failing
check at chain index `i` (indices outside `1 .. len-1` are never checked). -/
def checkAt (encode_string : String → String) (d : Nat) (blocks : List Block) (i : Nat) :
    Option IntegrityViolation :=
  if 1 ≤ i ∧ i < blocks.length then
    stepViolation encode_string d (blocks.getD (i - 1) default) (blocks.getD i default) i
  else
    none

/-- The chains produced by the public operations: construct a `BlockChain`
(which admits the genesis block), then any sequence of `addBlock` admissions. -/
inductive Reachable (encode_string : String → String) : BlockChain → Prop where
  | construct (difficulty : Nat)
      (h : minable encode_string difficulty (Block.init encode_string "this is the genesis")) :
      Reachable encode_string (BlockChain.init encode_string difficulty h)
  | step (c : BlockChain) (b : Block) (h : minable encode_string c.difficulty b) :
      Reachable encode_string c → Reachable encode_string (addBlock encode_string c b h)

/-- The data-model invariant of the `Block` class:
`digest == Hash(content ++ decimal_string(nonce))`. -/
def hashInv (encode_string : String → String) (b : Block) : Prop :=
  b.hash = encode_string (b.content ++ toString b.nonce)

/-- Proof-of-work invariant of a chain state: every block's hash starts with
`difficulty` many `'0'` characters. -/
def powAll (c : BlockChain) : Prop :=
  ∀ i, i < c.blocks.length → powOk c.difficulty ((c.blocks.getD i default).hash) = true

/-- Link invariant of a chain state: every non-genesis block's stored previous
hash is the hash of its predecessor. -/
def linkOk (c : BlockChain) : Prop :=
  ∀ i, 1 ≤ i → i < c.blocks.length →
    (c.blocks.getD i default).previous_block_hash = (c.blocks.getD (i - 1) default).hash

/-- The predecessor block used by the walk at relative position `j`: the
carried previous block for `j = 0`, otherwise the block at position `j - 1`. -/
def preAt (prev : Block) (bs : List Block) : Nat → Block
  | 0 => prev
  | j + 1 => bs.getD j default

/-- A degenerate digest function used to instantiate the development on
concrete inputs: every input hashes to the empty string. -/
def hashZero : String → String := fun _ => ""

/-- The identity digest function, used to instantiate the development on
concrete inputs where distinct preimages must keep distinct digests. -/
def hashId : String → String := fun s => s

/-- Termination of mining the genesis block under `hashZero` at difficulty 0. -/
def hashZero_genesis_minable :
    minable hashZero 0 (Block.init hashZero "this is the genesis") :=
  ⟨0, by decide⟩

/-- Termination of mining a `Block("b")` under `hashZero` at difficulty 0. -/
def hashZero_b_minable : minable hashZero 0 (Block.init hashZero "b") :=
  ⟨0, by decide⟩

/-- Termination of mining a `Block("z")` under `hashZero` at difficulty 0. -/
def hashZero_z_minable : minable hashZero 0 (Block.init hashZero "z") :=
  ⟨0, by decide⟩

/-- A concrete two-block chain built by the public operations under `hashZero`. -/
def chainTwo : BlockChain :=
  addBlock hashZero (BlockChain.init hashZero 0 hashZero_genesis_minable)
    (Block.init hashZero "b") hashZero_b_minable

/-- A concrete hand-written admitted block (index 0) for the tamper scenarios,
valid under `hashId` at difficulty 0. -/
def blockV0 : Block :=
  { idx := some 0, nonce := 0, content := "g", previous_block_hash := genesisSentinel,
    hash := "g0" }

/-- A concrete hand-written admitted block (index 1) for the tamper scenarios,
valid under `hashId` at difficulty 0. -/
def blockV1 : Block :=
  { idx := some 1, nonce := 0, content := "c", previous_block_hash := "g0", hash := "c0" }

/-- A concrete chain state passing every check of `check_integrity` under
`hashId` at difficulty 0. -/
def chainValid : BlockChain :=
  { difficulty := 0, blocks := [blockV0, blockV1] }

/-- Loop termination for the default block under `hashZero` at difficulty 0. -/
def hashZero_default_minable :
    ∃ k, loopDone hashZero 0 (default : Block).content (default : Block).nonce
      (default : Block).hash k = true :=
  ⟨0, by decide⟩

/-- A digest function with a unique least satisfying nonce for content
`"a"` at difficulty 1: nonce 0 misses the target, nonce 1 hits it. -/
def hashAB : String → String := fun s => if s = "a1" then "0" else "x"

/-- A concrete empty chain at difficulty 1 (only used to add one block). -/
def chainD1 : BlockChain := { difficulty := 1, blocks := [] }

/-- Unfolding `powOk` to a propositional equation. -/
theorem powOk_eq_true_iff (d : Nat) (s : String) :
    powOk d s = true ↔ s.take d = zeroString d := by
  simp [powOk]

/-- The first component of a loop state is the start nonce plus the number of
iterations. -/
theorem loopState_fst (encode_string : String → String) (content : String) (nonce0 : Nat)
    (hash0 : String) (k : Nat) :
    (loopState encode_string content nonce0 hash0 k).1 = nonce0 + k := rfl

/-- When the stored hash satisfies the `Block` invariant, the hash of every
loop state is the digest of the content and the state's nonce. -/
theorem loopState_snd_of_inv (encode_string : String → String) (content : String) (nonce0 : Nat)
    (hash0 : String) (hinv : hash0 = encode_string (content ++ toString nonce0)) (k : Nat) :
    (loopState encode_string content nonce0 hash0 k).2 =
      encode_string (content ++ toString (nonce0 + k)) := by
  unfold loopState
  rcases Nat.eq_zero_or_pos k with hk | hk
  · subst hk; simpa using hinv
  · simp [Nat.pos_iff_ne_zero.mp hk]

/-- Under the `Block` invariant, the loop's exit condition after `k` iterations
is the proof-of-work condition on the digest at nonce `nonce0 + k`. -/
theorem loopDone_of_inv (encode_string : String → String) (d : Nat) (content : String)
    (nonce0 : Nat) (hash0 : String)
    (hinv : hash0 = encode_string (content ++ toString nonce0)) (k : Nat) :
    loopDone encode_string d content nonce0 hash0 k =
      powOk d (encode_string (content ++ toString (nonce0 + k))) := by
  unfold loopDone
  rw [loopState_snd_of_inv encode_string content nonce0 hash0 hinv k]

/-- The mining loop exits only with a hash satisfying the proof-of-work
condition. -/
theorem mineLoop_powOk (encode_string : String → String) (d : Nat) (content : String)
    (nonce0 : Nat) (hash0 : String)
    (h : ∃ k, loopDone encode_string d content nonce0 hash0 k = true) :
    powOk d (mineLoop encode_string d content nonce0 hash0 h).2 = true :=
  Nat.find_spec h

/-- The nonce returned by the mining loop. -/
theorem mineLoop_fst (encode_string : String → String) (d : Nat) (content : String)
    (nonce0 : Nat) (hash0 : String)
    (h : ∃ k, loopDone encode_string d content nonce0 hash0 k = true) :
    (mineLoop encode_string d content nonce0 hash0 h).1 = nonce0 + Nat.find h := rfl

/-- The mining loop preserves the `Block` invariant: if the incoming hash is
the digest of the content and the incoming nonce, the outgoing hash is the
digest of the content and the outgoing nonce. -/
theorem mineLoop_snd_of_inv (encode_string : String → String) (d : Nat) (content : String)
    (nonce0 : Nat) (hash0 : String)
    (hinv : hash0 = encode_string (content ++ toString nonce0))
    (h : ∃ k, loopDone encode_string d content nonce0 hash0 k = true) :
    (mineLoop encode_string d content nonce0 hash0 h).2 =
      encode_string (content ++ toString (mineLoop encode_string d content nonce0 hash0 h).1) :=
  loopState_snd_of_inv encode_string content nonce0 hash0 hinv (Nat.find h)

/-- Shape of an admission: `addBlock` leaves the difficulty alone and appends
exactly one block, which is the given block with its index set to the old
length, its predecessor hash set from the chain, and its nonce and hash set by
the mining loop. -/
theorem addBlock_eq (encode_string : String → String) (c : BlockChain) (b : Block)
    (h : minable encode_string c.difficulty b) :
    addBlock encode_string c b h =
      { difficulty := c.difficulty,
        blocks := c.blocks ++
          [{ idx := some c.blocks.length,
             nonce := (mineLoop encode_string c.difficulty b.content b.nonce b.hash h).1,
             content := b.content,
             previous_block_hash :=
               if c.blocks.length = 0 then genesisSentinel
               else (c.blocks.getD (c.blocks.length - 1) default).hash,
             hash := (mineLoop encode_string c.difficulty b.content b.nonce b.hash h).2 }] } :=
  rfl

/-- `getD` on an append, inside the left list. -/
theorem getD_append_lt (l l' : List Block) (n : Nat) (h : n < l.length) :
    (l ++ l').getD n default = l.getD n default := by
  induction l generalizing n with
  | nil => simp at h
  | cons a t ih =>
    cases n with
    | zero => rfl
    | succ m =>
      have hm : m < t.length := by simpa using h
      simpa using ih m hm

/-- `getD` of a one-element extension at the old length. -/
theorem getD_concat_length (l : List Block) (a : Block) :
    (l ++ [a]).getD l.length default = a := by
  induction l with
  | nil => rfl
  | cons b t ih => simp only [List.cons_append, List.length_cons, List.getD_cons_succ, ih]

/-- `getD` after `set` at a different position. -/
theorem getD_set_ne (l : List Block) (i j : Nat) (x : Block) (h : i ≠ j) :
    (l.set i x).getD j default = l.getD j default := by
  induction l generalizing i j with
  | nil => rfl
  | cons a t ih =>
    cases i with
    | zero =>
      cases j with
      | zero => exact absurd rfl h
      | succ m => rfl
    | succ i' =>
      cases j with
      | zero => rfl
      | succ m =>
        have : i' ≠ m := fun he => h (by rw [he])
        simpa using ih i' m this

/-- `getD` after `set` at the set position (in range). -/
theorem getD_set_self (l : List Block) (i : Nat) (x : Block) (h : i < l.length) :
    (l.set i x).getD i default = x := by
  induction l generalizing i with
  | nil => simp at h
  | cons a t ih =>
    cases i with
    | zero => rfl
    | succ i' =>
      have : i' < t.length := by simpa using h
      simpa using ih i' this

/-- Shifting the predecessor function across a cons cell. -/
theorem preAt_cons_succ (prev b : Block) (rest : List Block) (j : Nat) :
    preAt prev (b :: rest) (j + 1) = preAt b rest j := by
  cases j <;> rfl

/-- `getD` of a cons cell is the predecessor function of the tail. -/
theorem getD_cons_preAt (b : Block) (rest : List Block) (j : Nat) :
    (b :: rest).getD j default = preAt b rest j := by
  cases j <;> rfl

/-- A step of the walk stops at the first failing check of `stepViolation` and
continues otherwise. -/
theorem checkFrom_cons (encode_string : String → String) (d : Nat) (prev b : Block)
    (rest : List Block) (i : Nat) :
    checkFrom encode_string d prev (b :: rest) i =
      match stepViolation encode_string d prev b i with
      | some e => Except.error e
      | none => checkFrom encode_string d b rest (i + 1) := by
  simp only [checkFrom, stepViolation]
  split_ifs <;> rfl

/-- The walk never returns `ok false`. -/
theorem checkFrom_ne_ok_false (encode_string : String → String) (d : Nat) :
    ∀ (bs : List Block) (prev : Block) (i : Nat),
      checkFrom encode_string d prev bs i ≠ Except.ok false := by
  intro bs
  induction bs with
  | nil => intro prev i hc; exact Bool.noConfusion (Except.ok.inj hc)
  | cons b rest ih =>
    intro prev i hc
    rw [checkFrom_cons] at hc
    cases hsv : stepViolation encode_string d prev b i with
    | none => rw [hsv] at hc; exact ih b (i + 1) hc
    | some e => rw [hsv] at hc; exact Except.noConfusion hc

/-- The walk succeeds exactly when every per-position check passes. -/
theorem checkFrom_ok_iff (encode_string : String → String) (d : Nat) :
    ∀ (bs : List Block) (prev : Block) (i : Nat),
      checkFrom encode_string d prev bs i = Except.ok true ↔
        ∀ j, j < bs.length →
          stepViolation encode_string d (preAt prev bs j) (bs.getD j default) (i + j) = none := by
  intro bs
  induction bs with
  | nil =>
    intro prev i
    constructor
    · intro _ j hj; simp at hj
    · intro _; rfl
  | cons b rest ih =>
    intro prev i
    rw [checkFrom_cons]
    cases hsv : stepViolation encode_string d prev b i with
    | some e =>
      constructor
      · intro hc; exact Except.noConfusion hc
      · intro hall
        have h0 := hall 0 (by simp)
        simp only [preAt, List.getD_cons_zero, Nat.add_zero] at h0
        rw [hsv] at h0
        exact Option.noConfusion h0
    | none =>
      rw [ih b (i + 1)]
      constructor
      · intro hall j hj
        cases j with
        | zero =>
          simpa only [preAt, List.getD_cons_zero, Nat.add_zero] using hsv
        | succ j' =>
          have hj' : j' < rest.length := by simpa using hj
          have := hall j' hj'
          rw [preAt_cons_succ, List.getD_cons_succ]
          have harith : i + (j' + 1) = i + 1 + j' := by omega
          rw [harith]
          exact this
      · intro hall j hj
        have := hall (j + 1) (by simpa using Nat.succ_lt_succ hj)
        rw [preAt_cons_succ, List.getD_cons_succ] at this
        have harith : i + 1 + j = i + (j + 1) := by omega
        rw [harith]
        exact this

/-- The walk reports `e` exactly when some position fails with `e` as its
first failing check while every earlier position passes. -/
theorem checkFrom_error_iff (encode_string : String → String) (d : Nat) :
    ∀ (bs : List Block) (prev : Block) (i : Nat) (e : IntegrityViolation),
      checkFrom encode_string d prev bs i = Except.error e ↔
        ∃ j, j < bs.length ∧
          stepViolation encode_string d (preAt prev bs j) (bs.getD j default) (i + j) = some e ∧
          ∀ l, l < j →
            stepViolation encode_string d (preAt prev bs l) (bs.getD l default) (i + l) = none := by
  intro bs
  induction bs with
  | nil =>
    intro prev i e
    constructor
    · intro hc; exact Except.noConfusion hc
    · rintro ⟨j, hj, _⟩; simp at hj
  | cons b rest ih =>
    intro prev i e
    rw [checkFrom_cons]
    cases hsv : stepViolation encode_string d prev b i with
    | some e' =>
      constructor
      · intro hc
        have he : e' = e := Except.error.inj hc
        refine ⟨0, by simp, ?_, ?_⟩
        · simpa only [preAt, List.getD_cons_zero, Nat.add_zero, he] using hsv
        · intro l hl; simp at hl
      · rintro ⟨j, hj, hje, hlt⟩
        cases j with
        | zero =>
          simp only [preAt, List.getD_cons_zero, Nat.add_zero] at hje
          rw [hsv] at hje
          rw [Option.some.inj hje]
        | succ j' =>
          have h0 := hlt 0 (Nat.succ_pos j')
          simp only [preAt, List.getD_cons_zero, Nat.add_zero] at h0
          rw [hsv] at h0
          exact Option.noConfusion h0
    | none =>
      rw [ih b (i + 1) e]
      constructor
      · rintro ⟨j, hj, hje, hlt⟩
        refine ⟨j + 1, by simpa using Nat.succ_lt_succ hj, ?_, ?_⟩
        · rw [preAt_cons_succ, List.getD_cons_succ]
          have harith : i + (j + 1) = i + 1 + j := by omega
          rw [harith]
          exact hje
        · intro l hl
          cases l with
          | zero =>
            simpa only [preAt, List.getD_cons_zero, Nat.add_zero] using hsv
          | succ l' =>
            have hl' : l' < j := by omega
            have := hlt l' hl'
            rw [preAt_cons_succ, List.getD_cons_succ]
            have harith : i + (l' + 1) = i + 1 + l' := by omega
            rw [harith]
            exact this
      · rintro ⟨j, hj, hje, hlt⟩
        cases j with
        | zero =>
          simp only [preAt, List.getD_cons_zero, Nat.add_zero] at hje
          rw [hsv] at hje
          exact Option.noConfusion hje
        | succ j' =>
          refine ⟨j', by simpa using hj, ?_, ?_⟩
          · have := hje
            rw [preAt_cons_succ, List.getD_cons_succ] at this
            have harith : i + (j' + 1) = i + 1 + j' := by omega
            rw [harith] at this
            exact this
          · intro l hl
            have := hlt (l + 1) (by omega)
            rw [preAt_cons_succ, List.getD_cons_succ] at this
            have harith : i + (l + 1) = i + 1 + l := by omega
            rw [harith] at this
            exact this

/-- `checkAt` outside the checked range `1 .. len-1`. -/
theorem checkAt_out (encode_string : String → String) (d : Nat) (blocks : List Block)
    (i : Nat) (h : ¬ (1 ≤ i ∧ i < blocks.length)) :
    checkAt encode_string d blocks i = none := by
  unfold checkAt
  rw [if_neg h]

/-- `checkAt` inside the checked range of a non-empty chain, in terms of the
walk's relative predecessor function. -/
theorem checkAt_cons_succ (encode_string : String → String) (d : Nat) (b0 : Block)
    (rest : List Block) (j : Nat) (hj : j < rest.length) :
    checkAt encode_string d (b0 :: rest) (j + 1) =
      stepViolation encode_string d (preAt b0 rest j) (rest.getD j default) (j + 1) := by
  unfold checkAt
  rw [if_pos (by simp; omega)]
  rw [Nat.add_sub_cancel, List.getD_cons_succ, getD_cons_preAt]

/-- `check_integrity` never returns `ok false`. -/
theorem check_integrity_ne_ok_false (encode_string : String → String) (c : BlockChain) :
    check_integrity encode_string c ≠ Except.ok false := by
  unfold check_integrity
  cases c.blocks with
  | nil => intro hc; exact Bool.noConfusion (Except.ok.inj hc)
  | cons b0 rest => exact checkFrom_ne_ok_false encode_string c.difficulty rest b0 1

/-- `check_integrity` succeeds exactly when no index fails any check. -/
theorem check_integrity_ok_iff (encode_string : String → String) (c : BlockChain) :
    check_integrity encode_string c = Except.ok true ↔
      ∀ i, checkAt encode_string c.difficulty c.blocks i = none := by
  unfold check_integrity
  cases hbs : c.blocks with
  | nil =>
    constructor
    · intro _ i
      exact checkAt_out encode_string c.difficulty [] i (by simp)
    · intro _; rfl
  | cons b0 rest =>
    rw [checkFrom_ok_iff]
    constructor
    · intro hall i
      match i with
      | 0 => exact checkAt_out _ _ _ 0 (by simp)
      | j + 1 =>
        by_cases hj : j < rest.length
        · rw [checkAt_cons_succ _ _ _ _ _ hj]
          have := hall j hj
          have harith : 1 + j = j + 1 := by omega
          rw [harith] at this
          exact this
        · exact checkAt_out _ _ _ (j + 1) (by simp; omega)
    · intro hall j hj
      have := hall (j + 1)
      rw [checkAt_cons_succ _ _ _ _ _ hj] at this
      have harith : 1 + j = j + 1 := by omega
      rw [harith]
      exact this

/-- `check_integrity` reports `e` exactly when some index is the first failing
one and `e` is its first failing check. -/
theorem check_integrity_error_iff (encode_string : String → String) (c : BlockChain)
    (e : IntegrityViolation) :
    check_integrity encode_string c = Except.error e ↔
      ∃ i, checkAt encode_string c.difficulty c.blocks i = some e ∧
        ∀ j, j < i → checkAt encode_string c.difficulty c.blocks j = none := by
  unfold check_integrity
  cases hbs : c.blocks with
  | nil =>
    constructor
    · intro hc; exact Except.noConfusion hc
    · rintro ⟨i, hi, _⟩
      rw [checkAt_out _ _ _ i (by simp)] at hi
      exact Option.noConfusion hi
  | cons b0 rest =>
    rw [checkFrom_error_iff]
    constructor
    · rintro ⟨j, hj, hje, hlt⟩
      refine ⟨j + 1, ?_, ?_⟩
      · rw [checkAt_cons_succ _ _ _ _ _ hj]
        have harith : 1 + j = j + 1 := by omega
        rw [harith] at hje
        exact hje
      · intro l hl
        match l with
        | 0 => exact checkAt_out _ _ _ 0 (by simp)
        | l' + 1 =>
          have hl' : l' < j := by omega
          rw [checkAt_cons_succ _ _ _ _ _ (by omega)]
          have := hlt l' hl'
          have harith : 1 + l' = l' + 1 := by omega
          rw [harith] at this
          exact this
    · rintro ⟨i, hi, hlt⟩
      match i with
      | 0 =>
        rw [checkAt_out _ _ _ 0 (by simp)] at hi
        exact Option.noConfusion hi
      | j + 1 =>
        by_cases hj : j < rest.length
        · refine ⟨j, hj, ?_, ?_⟩
          · rw [checkAt_cons_succ _ _ _ _ _ hj] at hi
            have harith : 1 + j = j + 1 := by omega
            rw [harith]
            exact hi
          · intro l hl
            have := hlt (l + 1) (by omega)
            rw [checkAt_cons_succ _ _ _ _ _ (by omega)] at this
            have harith : 1 + l = l + 1 := by omega
            rw [harith]
            exact this
        · rw [checkAt_out _ _ _ (j + 1) (by simp; omega)] at hi
          exact Option.noConfusion hi

/-- Unfolding `stepViolation = none` into the three positive conditions. -/
theorem stepViolation_none_iff (encode_string : String → String) (d : Nat)
    (previous_block block : Block) (i : Nat) :
    stepViolation encode_string d previous_block block i = none ↔
      previous_block.hash = block.previous_block_hash ∧
      block.hash = encode_string (block.content ++ toString block.nonce) ∧
      powOk d block.hash = true := by
  unfold stepViolation
  by_cases h1 : previous_block.hash ≠ block.previous_block_hash
  · rw [if_pos h1]
    constructor
    · intro hc; exact Option.noConfusion hc
    · rintro ⟨ha, _, _⟩; exact absurd ha h1
  · rw [if_neg h1]
    by_cases h2 : block.hash ≠ encode_string (block.content ++ toString block.nonce)
    · rw [if_pos h2]
      constructor
      · intro hc; exact Option.noConfusion hc
      · rintro ⟨_, hb, _⟩; exact absurd hb h2
    · rw [if_neg h2]
      by_cases h3 : ¬ (powOk d block.hash = true)
      · rw [if_pos h3]
        constructor
        · intro hc; exact Option.noConfusion hc
        · rintro ⟨_, _, hc2⟩; exact absurd hc2 h3
      · rw [if_neg h3]
        exact ⟨fun _ => ⟨not_not.mp h1, not_not.mp h2, not_not.mp h3⟩, fun _ => rfl⟩

/-- If the stored hash already meets the target, the mining loop performs zero
iterations and returns the block's nonce and hash unchanged. -/
theorem mineLoop_exit (encode_string : String → String) (d : Nat) (content : String)
    (nonce0 : Nat) (hash0 : String) (hp : powOk d hash0 = true)
    (h : ∃ k, loopDone encode_string d content nonce0 hash0 k = true) :
    mineLoop encode_string d content nonce0 hash0 h = (nonce0, hash0) := by
  have h0 : loopDone encode_string d content nonce0 hash0 0 = true := by
    simpa [loopDone, loopState] using hp
  unfold mineLoop
  rw [(Nat.find_eq_zero h).mpr h0]
  rfl

/-- If the stored hash misses the target, the mining loop takes one step:
increment the nonce, recompute the hash, and continue.  This is the
small-step reading of the `while` loop, certifying `mineLoop` against the
source. -/
theorem mineLoop_step (encode_string : String → String) (d : Nat) (content : String)
    (nonce0 : Nat) (hash0 : String) (hp : powOk d hash0 = false)
    (h : ∃ k, loopDone encode_string d content nonce0 hash0 k = true)
    (h' : ∃ k, loopDone encode_string d content (nonce0 + 1)
      (encode_string (content ++ toString (nonce0 + 1))) k = true) :
    mineLoop encode_string d content nonce0 hash0 h =
      mineLoop encode_string d content (nonce0 + 1)
        (encode_string (content ++ toString (nonce0 + 1))) h' := by
  have hdone : ∀ j, loopDone encode_string d content nonce0 hash0 (j + 1) =
      loopDone encode_string d content (nonce0 + 1)
        (encode_string (content ++ toString (nonce0 + 1))) j := by
    intro j
    rw [loopDone_of_inv encode_string d content (nonce0 + 1)
      (encode_string (content ++ toString (nonce0 + 1))) rfl j]
    have : nonce0 + (j + 1) = nonce0 + 1 + j := by omega
    simp [loopDone, loopState, this]
  have hne0 : ¬ loopDone encode_string d content nonce0 hash0 0 = true := by
    simp [loopDone, loopState, hp]
  have hpos : 1 ≤ Nat.find h := by
    rcases Nat.eq_zero_or_pos (Nat.find h) with h0 | h0
    · exact absurd (h0 ▸ Nat.find_spec h) hne0
    · exact h0
  have hfind : Nat.find h = Nat.find h' + 1 := by
    apply le_antisymm
    · apply Nat.find_min'
      rw [hdone]
      exact Nat.find_spec h'
    · have hstep : loopDone encode_string d content (nonce0 + 1)
          (encode_string (content ++ toString (nonce0 + 1))) (Nat.find h - 1) = true := by
        rw [← hdone]
        have : Nat.find h - 1 + 1 = Nat.find h := by omega
        rw [this]
        exact Nat.find_spec h
      have := Nat.find_min' h' hstep
      omega
  unfold mineLoop loopState
  rw [hfind, Prod.mk.injEq]
  refine ⟨by omega, ?_⟩
  have harith : nonce0 + (Nat.find h' + 1) = nonce0 + 1 + Nat.find h' := by omega
  rcases Nat.eq_zero_or_pos (Nat.find h') with hz | hz
  · simp [hz]
  · have hnz : Nat.find h' ≠ 0 := by omega
    simp [hnz, harith]

/-- The mining loop returns exactly the least satisfying nonce at or above the
start nonce, together with its digest, whenever the incoming hash satisfies
the `Block` invariant. -/
theorem mineLoop_eq_of_least (encode_string : String → String) (d : Nat) (content : String)
    (nonce0 : Nat) (hash0 : String)
    (hinv : hash0 = encode_string (content ++ toString nonce0))
    (h : ∃ k, loopDone encode_string d content nonce0 hash0 k = true)
    (n : Nat) (hn0 : nonce0 ≤ n)
    (hn : powOk d (encode_string (content ++ toString n)) = true)
    (hmin : ∀ m, nonce0 ≤ m → m < n → powOk d (encode_string (content ++ toString m)) = false) :
    mineLoop encode_string d content nonce0 hash0 h = (n, encode_string (content ++ toString n)) := by
  have hdone : ∀ k, loopDone encode_string d content nonce0 hash0 k =
      powOk d (encode_string (content ++ toString (nonce0 + k))) :=
    loopDone_of_inv encode_string d content nonce0 hash0 hinv
  have hfind : Nat.find h = n - nonce0 := by
    apply le_antisymm
    · apply Nat.find_min'
      rw [hdone]
      have : nonce0 + (n - nonce0) = n := by omega
      rw [this]
      exact hn
    · by_contra hlt
      have hflt : Nat.find h < n - nonce0 := by omega
      have hspec := Nat.find_spec h
      rw [hdone] at hspec
      have := hmin (nonce0 + Nat.find h) (by omega) (by omega)
      rw [this] at hspec
      exact Bool.noConfusion hspec
  unfold mineLoop loopState
  rw [hfind, Prod.mk.injEq]
  have harith : nonce0 + (n - nonce0) = n := by omega
  refine ⟨harith, ?_⟩
  rcases Nat.eq_zero_or_pos (n - nonce0) with hz | hz
  · have : n = nonce0 := by omega
    simp [hz, hinv, this]
  · have hnz : n - nonce0 ≠ 0 := by omega
    simp [hnz, harith]

/-- Admission preserves the proof-of-work invariant of a chain state, and
establishes it on the admitted block, whatever the admitted block held. -/
theorem powAll_addBlock (encode_string : String → String) (c : BlockChain) (b : Block)
    (h : minable encode_string c.difficulty b) (hc : powAll c) :
    powAll (addBlock encode_string c b h) := by
  intro i hi
  rw [addBlock_eq] at hi ⊢
  simp only [List.length_append, List.length_singleton] at hi
  by_cases hlt : i < c.blocks.length
  · rw [getD_append_lt _ _ _ hlt]
    exact hc i hlt
  · have : i = c.blocks.length := by omega
    subst this
    rw [getD_concat_length]
    exact mineLoop_powOk encode_string c.difficulty b.content b.nonce b.hash h

/-- Admission preserves the link invariant of a chain state and establishes it
on the admitted block. -/
theorem linkOk_addBlock (encode_string : String → String) (c : BlockChain) (b : Block)
    (h : minable encode_string c.difficulty b) (hc : linkOk c) :
    linkOk (addBlock encode_string c b h) := by
  intro i h1 h2
  rw [addBlock_eq] at h2 ⊢
  simp only [List.length_append, List.length_singleton] at h2
  by_cases hlt : i < c.blocks.length
  · rw [getD_append_lt _ _ _ hlt, getD_append_lt _ _ _ (by omega)]
    exact hc i h1 hlt
  · have hi : i = c.blocks.length := by omega
    subst hi
    rw [getD_concat_length, getD_append_lt _ _ _ (by omega)]
    have hne : ¬ (c.blocks.length = 0) := by omega
    simp only [hne, if_false]

/-- The per-index checks of the verification pass never read the `idx` field:
they are invariant under any rewriting of the indices of both blocks. -/
theorem stepViolation_set_idx (encode_string : String → String) (d : Nat)
    (previous_block block : Block) (i : Nat) (o1 o2 : Option Nat) :
    stepViolation encode_string d { previous_block with idx := o1 } { block with idx := o2 } i =
      stepViolation encode_string d previous_block block i := rfl

/-- The whole walk never reads the `idx` field: rewriting every block's index
with an arbitrary function leaves the result unchanged. -/
theorem checkFrom_map_idx (encode_string : String → String) (d : Nat) (f : Block → Option Nat) :
    ∀ (bs : List Block) (prev : Block) (i : Nat),
      checkFrom encode_string d { prev with idx := f prev }
        (bs.map fun x => { x with idx := f x }) i = checkFrom encode_string d prev bs i := by
  intro bs
  induction bs with
  | nil => intro prev i; rfl
  | cons b rest ih =>
    intro prev i
    rw [List.map_cons, checkFrom_cons, checkFrom_cons,
      stepViolation_set_idx encode_string d prev b i (f prev) (f b)]
    cases stepViolation encode_string d prev b i with
    | some e => rfl
    | none => exact ih b (i + 1)

/-- C1: for every chain built by the public operations (construct a
`BlockChain` with difficulty `D`, then any sequence of `addBlock` admissions),
every admitted block's hash has its first `D` characters all equal to `'0'`:
`blocks[i].hash[:D] == '0'*D` for every `i`. -/
theorem claim_C1 (encode_string : String → String) (c : BlockChain)
    (hc : Reachable encode_string c) :
    ∀ i, i < c.blocks.length →
      ((c.blocks.getD i default).hash).take c.difficulty = zeroString c.difficulty := by
  have hp : powAll c := by
    induction hc with
    | construct d h =>
      exact powAll_addBlock encode_string { difficulty := d, blocks := [] }
        { Block.init encode_string "this is the genesis" with idx := some 0 } h
        (fun i hi => absurd hi (by simp))
    | step c b h _ ih => exact powAll_addBlock encode_string c b h ih
  intro i hi
  exact (powOk_eq_true_iff _ _).mp (hp i hi)

/-- Witness for C1 at a concrete reachable chain. -/
theorem claim_C1_witness :
    (((BlockChain.init hashZero 0 hashZero_genesis_minable).blocks.getD 0 default).hash).take 0 =
      zeroString 0 :=
  claim_C1 hashZero (BlockChain.init hashZero 0 hashZero_genesis_minable)
    (Reachable.construct 0 hashZero_genesis_minable) 0 (by decide)

/-- C2: for every chain built by the public operations and every index
`i ≥ 1`, the admitted block's stored previous hash equals the hash of its
predecessor (`blocks[i].previous_block_hash == blocks[i-1].hash`), and this
invariant is preserved by every admission. -/
theorem claim_C2 (encode_string : String → String) :
    (∀ c, Reachable encode_string c → linkOk c) ∧
    (∀ (c : BlockChain) (b : Block) (h : minable encode_string c.difficulty b),
      linkOk c → linkOk (addBlock encode_string c b h)) := by
  constructor
  · intro c hc
    induction hc with
    | construct d h =>
      exact linkOk_addBlock encode_string { difficulty := d, blocks := [] }
        { Block.init encode_string "this is the genesis" with idx := some 0 } h
        (fun i h1 h2 => absurd h2 (by simp))
    | step c b h _ ih => exact linkOk_addBlock encode_string c b h ih
  · intro c b h hc
    exact linkOk_addBlock encode_string c b h hc

/-- Witness for C2 at a concrete two-block reachable chain. -/
theorem claim_C2_witness :
    (chainTwo.blocks.getD 1 default).previous_block_hash =
      (chainTwo.blocks.getD 0 default).hash :=
  (claim_C2 hashZero).1 chainTwo
    (Reachable.step (BlockChain.init hashZero 0 hashZero_genesis_minable)
      (Block.init hashZero "b") hashZero_b_minable
      (Reachable.construct 0 hashZero_genesis_minable))
    1 (by decide) (by decide)

/-- C3: a freshly constructed block satisfies
`hash == encode_string(content + str(nonce))`; every iteration of the mining
loop (increment the nonce, then `compute_hash()`) re-establishes it; and the
mining loop as a whole preserves it. -/
theorem claim_C3 (encode_string : String → String) (content : String) (b : Block) (d : Nat)
    (hb : hashInv encode_string b)
    (hex : ∃ k, loopDone encode_string d b.content b.nonce b.hash k = true) :
    hashInv encode_string (Block.init encode_string content) ∧
    hashInv encode_string (Block.compute_hash encode_string { b with nonce := b.nonce + 1 }) ∧
    hashInv encode_string
      { b with nonce := (mineLoop encode_string d b.content b.nonce b.hash hex).1,
               hash := (mineLoop encode_string d b.content b.nonce b.hash hex).2 } :=
  ⟨rfl, rfl, mineLoop_snd_of_inv encode_string d b.content b.nonce b.hash hb hex⟩

/-- Witness for C3 at a concrete block. -/
theorem claim_C3_witness :
    hashInv hashZero (Block.init hashZero "w") ∧
    hashInv hashZero
      (Block.compute_hash hashZero { (default : Block) with nonce := (default : Block).nonce + 1 }) ∧
    hashInv hashZero
      { (default : Block) with
        nonce := (mineLoop hashZero 0 (default : Block).content (default : Block).nonce
          (default : Block).hash hashZero_default_minable).1,
        hash := (mineLoop hashZero 0 (default : Block).content (default : Block).nonce
          (default : Block).hash hashZero_default_minable).2 } :=
  claim_C3 hashZero "w" default 0 rfl hashZero_default_minable

/-- C6: constructing a `BlockChain` performs exactly one admission, after
which `blocks` has length 1, `blocks[0].idx = 0`, `blocks[0].content` is
`"this is the genesis"`, and `blocks[0].previous_block_hash` is the
no-predecessor sentinel. -/
theorem claim_C6 (encode_string : String → String) (difficulty : Nat)
    (h : minable encode_string difficulty (Block.init encode_string "this is the genesis")) :
    (BlockChain.init encode_string difficulty h).blocks.length = 1 ∧
    ((BlockChain.init encode_string difficulty h).blocks.getD 0 default).idx = some 0 ∧
    ((BlockChain.init encode_string difficulty h).blocks.getD 0 default).content =
      "this is the genesis" ∧
    ((BlockChain.init encode_string difficulty h).blocks.getD 0 default).previous_block_hash =
      genesisSentinel :=
  ⟨rfl, rfl, rfl, rfl⟩

/-- Witness for C6 at a concrete digest function and difficulty. -/
theorem claim_C6_witness :
    (BlockChain.init hashZero 0 hashZero_genesis_minable).blocks.length = 1 ∧
    ((BlockChain.init hashZero 0 hashZero_genesis_minable).blocks.getD 0 default).idx = some 0 ∧
    ((BlockChain.init hashZero 0 hashZero_genesis_minable).blocks.getD 0 default).content =
      "this is the genesis" ∧
    ((BlockChain.init hashZero 0 hashZero_genesis_minable).blocks.getD 0
      default).previous_block_hash = genesisSentinel :=
  claim_C6 hashZero 0 hashZero_genesis_minable

/-- C9: an admission leaves the difficulty and every previously admitted block
unchanged, appends exactly one block, and that block is the given one with
only its `idx`, `previous_block_hash`, `nonce` and `hash` fields rewritten
(in particular its `content` is untouched). -/
theorem claim_C9 (encode_string : String → String) (c : BlockChain) (b : Block)
    (h : minable encode_string c.difficulty b) :
    (addBlock encode_string c b h).difficulty = c.difficulty ∧
    ∃ nonce' hash', (addBlock encode_string c b h).blocks =
      c.blocks ++
        [{ b with idx := some c.blocks.length,
                  previous_block_hash :=
                    if c.blocks.length = 0 then genesisSentinel
                    else (c.blocks.getD (c.blocks.length - 1) default).hash,
                  nonce := nonce', hash := hash' }] :=
  ⟨rfl, (mineLoop encode_string c.difficulty b.content b.nonce b.hash h).1,
    (mineLoop encode_string c.difficulty b.content b.nonce b.hash h).2, rfl⟩

/-- Witness for C9 at a concrete admission. -/
theorem claim_C9_witness :
    (addBlock hashZero { difficulty := 0, blocks := [] } (Block.init hashZero "z")
      hashZero_z_minable).difficulty = 0 ∧
    ∃ nonce' hash',
      (addBlock hashZero { difficulty := 0, blocks := [] } (Block.init hashZero "z")
        hashZero_z_minable).blocks =
        [{ Block.init hashZero "z" with
            idx := some 0,
            previous_block_hash := genesisSentinel,
            nonce := nonce',
            hash := hash' }] := by
  have := claim_C9 hashZero { difficulty := 0, blocks := [] } (Block.init hashZero "z")
    hashZero_z_minable
  simpa using this

/-- C10: on a chain whose block list has length 1 the verification loop is
empty, so `check_integrity` returns `ok true` whatever the single block's
fields hold. -/
theorem claim_C10 (encode_string : String → String) (difficulty : Nat) (b : Block) :
    check_integrity encode_string { difficulty := difficulty, blocks := [b] } =
      Except.ok true := rfl

/-- The block appended by an admission, read back from the chain. -/
theorem addBlock_last (encode_string : String → String) (c : BlockChain) (b : Block)
    (h : minable encode_string c.difficulty b) :
    (addBlock encode_string c b h).blocks.getD c.blocks.length default =
      { idx := some c.blocks.length,
        nonce := (mineLoop encode_string c.difficulty b.content b.nonce b.hash h).1,
        content := b.content,
        previous_block_hash :=
          if c.blocks.length = 0 then genesisSentinel
          else (c.blocks.getD (c.blocks.length - 1) default).hash,
        hash := (mineLoop encode_string c.difficulty b.content b.nonce b.hash h).2 } :=
  getD_concat_length c.blocks _

/-- C4: a freshly constructed block has nonce 0, no assigned index, and its
hash computed from `(content, 0)`; and whenever some nonce `n` is the least
one whose digest meets the difficulty target, admitting the fresh block
terminates with exactly that nonce and the corresponding digest. -/
theorem claim_C4 (encode_string : String → String) (c : BlockChain) (content : String) (n : Nat)
    (hn : powOk c.difficulty (encode_string (content ++ toString n)) = true)
    (hmin : ∀ m, m < n → powOk c.difficulty (encode_string (content ++ toString m)) = false) :
    (Block.init encode_string content).nonce = 0 ∧
    (Block.init encode_string content).idx = none ∧
    (Block.init encode_string content).hash = encode_string (content ++ toString 0) ∧
    ∃ h : minable encode_string c.difficulty (Block.init encode_string content),
      ((addBlock encode_string c (Block.init encode_string content) h).blocks.getD
        c.blocks.length default).nonce = n ∧
      ((addBlock encode_string c (Block.init encode_string content) h).blocks.getD
        c.blocks.length default).hash = encode_string (content ++ toString n) := by
  refine ⟨rfl, rfl, rfl, ?_⟩
  have hinv : (Block.init encode_string content).hash =
      encode_string ((Block.init encode_string content).content ++
        toString (Block.init encode_string content).nonce) := rfl
  have hm : minable encode_string c.difficulty (Block.init encode_string content) := by
    refine ⟨n, ?_⟩
    rw [loopDone_of_inv encode_string c.difficulty (Block.init encode_string content).content
      (Block.init encode_string content).nonce (Block.init encode_string content).hash hinv n]
    show powOk c.difficulty (encode_string (content ++ toString (0 + n))) = true
    rw [Nat.zero_add]
    exact hn
  have hml : mineLoop encode_string c.difficulty (Block.init encode_string content).content
      (Block.init encode_string content).nonce (Block.init encode_string content).hash hm =
      (n, encode_string (content ++ toString n)) :=
    mineLoop_eq_of_least encode_string c.difficulty (Block.init encode_string content).content
      (Block.init encode_string content).nonce (Block.init encode_string content).hash hinv hm
      n (Nat.zero_le n) hn (fun m _ hlt => hmin m hlt)
  refine ⟨hm, ?_, ?_⟩
  · rw [addBlock_last encode_string c (Block.init encode_string content) hm, hml]
  · rw [addBlock_last encode_string c (Block.init encode_string content) hm, hml]

/-- Witness for C4 at a concrete digest function where the least satisfying
nonce is 1. -/
theorem claim_C4_witness :
    (Block.init hashAB "a").nonce = 0 ∧
    (Block.init hashAB "a").idx = none ∧
    (Block.init hashAB "a").hash = hashAB ("a" ++ toString 0) ∧
    ∃ h : minable hashAB chainD1.difficulty (Block.init hashAB "a"),
      ((addBlock hashAB chainD1 (Block.init hashAB "a") h).blocks.getD
        chainD1.blocks.length default).nonce = 1 ∧
      ((addBlock hashAB chainD1 (Block.init hashAB "a") h).blocks.getD
        chainD1.blocks.length default).hash = hashAB ("a" ++ toString 1) :=
  claim_C4 hashAB chainD1 "a" 1 (by decide) (by decide)

/-- C5: `check_integrity` never returns `ok false`; it returns `ok true`
exactly when no index `1 .. len-1` fails any of its checks (the genesis index
0 is excluded); and it reports a violation exactly at the first violating
index, the violation being that index's first failing check in the order
link, digest recomputation, proof of work. -/
theorem claim_C5 (encode_string : String → String) (c : BlockChain) :
    check_integrity encode_string c ≠ Except.ok false ∧
    (check_integrity encode_string c = Except.ok true ↔
      ∀ i, checkAt encode_string c.difficulty c.blocks i = none) ∧
    (∀ e, check_integrity encode_string c = Except.error e ↔
      ∃ i, checkAt encode_string c.difficulty c.blocks i = some e ∧
        ∀ j, j < i → checkAt encode_string c.difficulty c.blocks j = none) :=
  ⟨check_integrity_ne_ok_false encode_string c, check_integrity_ok_iff encode_string c,
    fun e => check_integrity_error_iff encode_string c e⟩

/-- Witness for C5 at a concrete chain. -/
theorem claim_C5_witness : check_integrity hashId chainValid ≠ Except.ok false :=
  (claim_C5 hashId chainValid).1

/-- Overwriting block `i` of a fully valid chain with a block that keeps the
predecessor reference but breaks the digest recomputation makes the
verification pass stop with `DigestMismatch` at exactly index `i`. -/
theorem tamper_digest_at (encode_string : String → String) (c : BlockChain) (i : Nat)
    (b' : Block) (hvalid : check_integrity encode_string c = Except.ok true)
    (h1 : 1 ≤ i) (h2 : i < c.blocks.length)
    (hprev : b'.previous_block_hash = (c.blocks.getD i default).previous_block_hash)
    (hbad : ¬ (b'.hash = encode_string (b'.content ++ toString b'.nonce))) :
    check_integrity encode_string { c with blocks := c.blocks.set i b' } =
      Except.error (IntegrityViolation.DigestMismatch i) := by
  obtain ⟨d, bs⟩ := c
  dsimp only at h2 hprev ⊢
  have hall := (check_integrity_ok_iff encode_string ⟨d, bs⟩).mp hvalid
  dsimp only at hall
  have hforig := hall i
  unfold checkAt at hforig
  rw [if_pos (⟨h1, h2⟩ : 1 ≤ i ∧ i < bs.length)] at hforig
  have hconds := (stepViolation_none_iff encode_string d _ _ i).mp hforig
  apply (check_integrity_error_iff encode_string ⟨d, bs.set i b'⟩ _).mpr
  dsimp only
  refine ⟨i, ?_, ?_⟩
  · unfold checkAt
    rw [if_pos (⟨h1, by rw [List.length_set]; exact h2⟩ : 1 ≤ i ∧ i < (bs.set i b').length)]
    rw [getD_set_ne bs i (i - 1) b' (by omega), getD_set_self bs i b' h2]
    unfold stepViolation
    rw [if_neg (not_not.mpr (hconds.1.trans hprev.symm)), if_pos hbad]
  · intro j hj
    unfold checkAt
    by_cases hg : 1 ≤ j ∧ j < (bs.set i b').length
    · rw [if_pos hg]
      rw [getD_set_ne bs i (j - 1) b' (by omega), getD_set_ne bs i j b' (by omega)]
      have hjorig := hall j
      unfold checkAt at hjorig
      rw [if_pos (⟨hg.1, by rw [List.length_set] at hg; exact hg.2⟩ : 1 ≤ j ∧ j < bs.length)]
        at hjorig
      exact hjorig
    · rw [if_neg hg]

/-- C7: on a chain that passes verification, replacing the content or the hash
of any non-genesis block with a different value (without re-running
admission) makes `check_integrity` stop with a `DigestMismatch` or a
`LinkMismatch` at exactly that block's index, instead of returning `ok true`.
(For the content replacement, "different value" is expressed as the digest of
the new content differing from the stored hash, which for a collision-free
digest function is exactly `content' ≠ content`.) -/
theorem claim_C7 (encode_string : String → String) (c : BlockChain) (i : Nat)
    (hvalid : check_integrity encode_string c = Except.ok true)
    (h1 : 1 ≤ i) (h2 : i < c.blocks.length) (content' : String)
    (hc' : encode_string (content' ++ toString (c.blocks.getD i default).nonce) ≠
      (c.blocks.getD i default).hash)
    (hash' : String) (hh' : hash' ≠ (c.blocks.getD i default).hash) :
    (check_integrity encode_string
        { c with blocks := c.blocks.set i { c.blocks.getD i default with content := content' } } =
        Except.error (IntegrityViolation.DigestMismatch i) ∨
      check_integrity encode_string
        { c with blocks := c.blocks.set i { c.blocks.getD i default with content := content' } } =
        Except.error (IntegrityViolation.LinkMismatch i)) ∧
    (check_integrity encode_string
        { c with blocks := c.blocks.set i { c.blocks.getD i default with hash := hash' } } =
        Except.error (IntegrityViolation.DigestMismatch i) ∨
      check_integrity encode_string
        { c with blocks := c.blocks.set i { c.blocks.getD i default with hash := hash' } } =
        Except.error (IntegrityViolation.LinkMismatch i)) := by
  have hall := (check_integrity_ok_iff encode_string c).mp hvalid
  have hforig := hall i
  unfold checkAt at hforig
  rw [if_pos (⟨h1, h2⟩ : 1 ≤ i ∧ i < c.blocks.length)] at hforig
  have hconds := (stepViolation_none_iff encode_string c.difficulty _ _ i).mp hforig
  constructor
  · left
    apply tamper_digest_at encode_string c i
      { c.blocks.getD i default with content := content' } hvalid h1 h2 rfl
    intro he
    exact hc' he.symm
  · left
    apply tamper_digest_at encode_string c i
      { c.blocks.getD i default with hash := hash' } hvalid h1 h2 rfl
    intro he
    exact hh' (he.trans hconds.2.1.symm)

/-- Witness for C7: tampering with block 1 of a concrete valid chain. -/
theorem claim_C7_witness :
    (check_integrity hashId
        { chainValid with
          blocks := chainValid.blocks.set 1
            { chainValid.blocks.getD 1 default with content := "X" } } =
        Except.error (IntegrityViolation.DigestMismatch 1) ∨
      check_integrity hashId
        { chainValid with
          blocks := chainValid.blocks.set 1
            { chainValid.blocks.getD 1 default with content := "X" } } =
        Except.error (IntegrityViolation.LinkMismatch 1)) ∧
    (check_integrity hashId
        { chainValid with
          blocks := chainValid.blocks.set 1
            { chainValid.blocks.getD 1 default with hash := "Y" } } =
        Except.error (IntegrityViolation.DigestMismatch 1) ∨
      check_integrity hashId
        { chainValid with
          blocks := chainValid.blocks.set 1
            { chainValid.blocks.getD 1 default with hash := "Y" } } =
        Except.error (IntegrityViolation.LinkMismatch 1)) :=
  claim_C7 hashId chainValid 1 (by decide) (by decide) (by decide) "X" (by decide) "Y" (by decide)

/-- C8: `check_integrity` never reads the `idx` field: on any chain it accepts,
rewriting every block's index with an arbitrary function (so that in general
`blocks[i].idx ≠ i`) still yields `ok true`. -/
theorem claim_C8 (encode_string : String → String) (c : BlockChain) (f : Block → Option Nat)
    (hvalid : check_integrity encode_string c = Except.ok true) :
    check_integrity encode_string
      { c with blocks := c.blocks.map fun x => { x with idx := f x } } = Except.ok true := by
  obtain ⟨d, bs⟩ := c
  cases bs with
  | nil => rfl
  | cons b0 rest =>
    show checkFrom encode_string d { b0 with idx := f b0 }
      (rest.map fun x => { x with idx := f x }) 1 = Except.ok true
    rw [checkFrom_map_idx]
    exact hvalid

/-- Witness for C8: clobbering every index of a concrete valid chain. -/
theorem claim_C8_witness :
    check_integrity hashId
      { chainValid with blocks := chainValid.blocks.map fun x => { x with idx := some 7 } } =
      Except.ok true :=
  claim_C8 hashId chainValid (fun _ => some 7) (by decide)
